import Mathlib

/-!
Verification of the rental-control event/slot reconciliation engine.

The definitions below are a shallow embedding of the Python source
(`custom_components/rental_control`): the override store
(`event_overrides.py`), the validity sweep, the slot-name extractor and
the helpers of `util.py`, the door-code generator and the reassignment
decision of `sensors/calsensor.py`, and the calendar-refresh tail of
`coordinator.py`.  Python dictionaries are modelled as association lists
(first binding wins, insertion replaces in place or appends), Python
dates/datetimes as explicit year/month/day records compared
lexicographically, and external side effects (Home Assistant service
calls) as explicit logs of the entities written.
-/

namespace RentalControl

/-- A calendar date (year, month, day), compared lexicographically exactly
as Python `datetime.date` compares. -/
structure Date where
  year : Nat
  month : Nat
  day : Nat
deriving Repr, DecidableEq

/-- Python `date.__lt__`: lexicographic comparison. -/
def Date.blt (a b : Date) : Bool :=
  a.year < b.year ||
    (a.year == b.year &&
      (a.month < b.month || (a.month == b.month && a.day < b.day)))

instance : Inhabited Date := ⟨⟨1970, 1, 1⟩⟩

/-- A timezone-aware instant; only its calendar date is inspected by the
override logic (`.date()` in the source), the time of day is carried
opaquely. -/
structure DateTime where
  date : Date
  minuteOfDay : Nat
deriving Repr, DecidableEq

/-- `EventOverride` (TypedDict in `event_overrides.py`): the record held
for an assigned door-code slot. -/
structure EventOverride where
  slot_name : String
  slot_code : String
  start_time : DateTime
  end_time : DateTime
deriving Repr, DecidableEq

/-- The override table: Python `Dict[int, EventOverride | None]` as an
association list with unique keys.  `none` as a value is the "cleared
placeholder" entry. -/
abbrev OverrideTable := List (Int × Option EventOverride)

/-- Dictionary lookup: first binding for the key, `none` when the key is
absent (a `KeyError` site in Python; every verified call site supplies a
present key). -/
def lookupSlot : OverrideTable → Int → Option (Option EventOverride)
  | [], _ => none
  | (k', v) :: rest, k => if k' = k then some v else lookupSlot rest k

/-- Dictionary store `d[k] = v`: replace the binding in place when the key
exists, append otherwise (Python dict update semantics). -/
def insertSlot : OverrideTable → Int → Option EventOverride → OverrideTable
  | [], k, v => [(k, v)]
  | (k', v') :: rest, k, v =>
    if k' = k then (k, v) :: rest else (k', v') :: insertSlot rest k v

/-- `EventOverrides.__get_slots_with_values`: sorted list of keys bound to
a non-`None` override. -/
def slotsWithValues (os : OverrideTable) : List Int :=
  List.insertionSort (· ≤ ·) ((os.filter (fun p => p.2.isSome)).map Prod.fst)

/-- `EventOverrides.__get_slots_without_values(max_slot)`: sorted list of
keys bound to `None` that are strictly greater than `max_slot` (the Python
default argument is `0`). -/
def slotsWithoutValues (os : OverrideTable) (max_slot : Int) : List Int :=
  List.insertionSort (· ≤ ·)
    ((os.filter (fun p => p.2.isNone && decide (max_slot < p.1))).map Prod.fst)

/-- The `EventOverrides` object of `event_overrides.py`. -/
structure EventOverrides where
  max_slots : Nat
  next_slot : Option Int
  overrides : OverrideTable
  ready : Bool
  start_slot : Int
deriving Repr, DecidableEq

/-- `EventOverrides.__init__`. -/
def EventOverrides.init (start_slot : Int) (max_slots : Nat) : EventOverrides :=
  { max_slots := max_slots
    next_slot := none
    overrides := []
    ready := false
    start_slot := start_slot }

/-- `EventOverrides.__assign_next_slot`. -/
def EventOverrides.assignNextSlot (o : EventOverrides) : EventOverrides :=
  if o.overrides.length ≠ o.max_slots then o
  else
    let swv := slotsWithValues o.overrides
    if swv.length = o.max_slots then { o with next_slot := none }
    else
      let max_slot := swv.getLastD (o.start_slot - 1)
      match (slotsWithoutValues o.overrides max_slot).head? with
      | some a => { o with next_slot := some a }
      | none =>
        match (slotsWithoutValues o.overrides 0).head? with
        | some a => { o with next_slot := some a }
        | none => { o with next_slot := none }

/-- The prefix-stripping regex `^(<pfx> )?(.*)$` of `EventOverrides.update`:
when the name starts with the configured prefix followed by a space, that
leading part is dropped, otherwise the name is unchanged.  The prefix is
treated as a literal string (no regex metacharacters) and names are
single-line. -/
def stripNamePfx (pfx name : String) : String :=
  if (pfx ++ " ").isPrefixOf name then name.drop (pfx ++ " ").length else name

/-- The table produced by the body of `EventOverrides.update`: upsert the
slot's override when `slot_name` is truthy (stripping the configured
prefix, which defaults to `""` when absent), else upsert the cleared
placeholder. -/
def updTable (os : OverrideTable) (slot : Int)
    (slot_code slot_name : String) (start_time end_time : DateTime)
    (pfx : Option String) : OverrideTable :=
  if slot_name ≠ "" then
    insertSlot os slot
      (some ⟨stripNamePfx (pfx.getD "") slot_name, slot_code,
        start_time, end_time⟩)
  else
    insertSlot os slot none

/-- `EventOverrides.update` (the write operation): upsert the slot's
override (a cleared placeholder when `slot_name` is empty), recompute
`next_slot`, and latch `ready` once every slot has an entry. -/
def EventOverrides.update (o : EventOverrides) (slot : Int)
    (slot_code slot_name : String) (start_time end_time : DateTime)
    (pfx : Option String) : EventOverrides :=
  let overrides :=
    updTable o.overrides slot slot_code slot_name start_time end_time pfx
  let o' := EventOverrides.assignNextSlot { o with overrides := overrides }
  if overrides.length = o'.max_slots then { o' with ready := true } else o'

/-- `EventOverrides.get_slot_name`: the stored identity of a slot, `""`
for a cleared slot. -/
def EventOverrides.getSlotName (o : EventOverrides) (slot : Int) : String :=
  match lookupSlot o.overrides slot with
  | some (some ov) => ov.slot_name
  | _ => ""

/-- `EventOverrides.get_slot_start_date`: the start date of a slot's
override, today's date for a cleared slot. -/
def EventOverrides.getSlotStartDate (o : EventOverrides) (today : Date)
    (slot : Int) : Date :=
  match lookupSlot o.overrides slot with
  | some (some ov) => ov.start_time.date
  | _ => today

/-- `EventOverrides.get_slot_end_date`: the end date of a slot's override,
today's date for a cleared slot. -/
def EventOverrides.getSlotEndDate (o : EventOverrides) (today : Date)
    (slot : Int) : Date :=
  match lookupSlot o.overrides slot with
  | some (some ov) => ov.end_time.date
  | _ => today

/-- `EventOverrides.get_slot_key_by_name` body: scan the assigned slots in
ascending order, return the first whose stored name matches, `0` when
none does. -/
def getSlotKeyGo (o : EventOverrides) (slot_name : String) :
    List Int → Int
  | [] => 0
  | s :: t =>
    match lookupSlot o.overrides s with
    | some (some ov) =>
      if ov.slot_name = slot_name then s else getSlotKeyGo o slot_name t
    | _ => getSlotKeyGo o slot_name t

/-- `EventOverrides.get_slot_key_by_name`. -/
def EventOverrides.getSlotKeyByName (o : EventOverrides)
    (slot_name : String) : Int :=
  getSlotKeyGo o slot_name (slotsWithValues o.overrides)

/-- `EventOverrides.get_slot_with_name` body. -/
def getSlotWithNameGo (o : EventOverrides) (slot_name : String) :
    List Int → Option EventOverride
  | [] => none
  | s :: t =>
    match lookupSlot o.overrides s with
    | some (some ov) =>
      if ov.slot_name = slot_name then some ov
      else getSlotWithNameGo o slot_name t
    | _ => getSlotWithNameGo o slot_name t

/-- `EventOverrides.get_slot_with_name`: lookup by reservation identity. -/
def EventOverrides.getSlotWithName (o : EventOverrides)
    (slot_name : String) : Option EventOverride :=
  getSlotWithNameGo o slot_name (slotsWithValues o.overrides)

/-! ## Coordinator state and the validity sweep -/

/-- A rendered event sensor (`RentalControlCalSensor`), abstracted to the
two attributes the sweep gate and `get_event_names` read: availability and
the rendered `slot_name`. -/
structure EventSensor where
  available : Bool
  slot_name : Option String
deriving Repr, DecidableEq

/-- A calendar event as the sweep consumes it: only its end date is read
(`calendar[i].end.date()`). -/
structure CalEvent where
  endDate : Date
deriving Repr, DecidableEq

instance : Inhabited CalEvent := ⟨⟨default⟩⟩

/-- The slice of `RentalControlCoordinator` state read by
`EventOverrides.async_check_overrides`.  `today` stands for
`dt.start_of_local_day().date()`. -/
structure Coordinator where
  calendar_loaded : Bool
  events_ready_cache : Bool
  event_sensors : List EventSensor
  max_events : Nat
  calendar : List CalEvent
  today : Date
deriving Repr, DecidableEq

/-- `RentalControlCoordinator.events_ready` (the value the property
returns): latched true once set, otherwise false until all `max_events`
sensors exist and report available. -/
def Coordinator.eventsReady (c : Coordinator) : Bool :=
  if c.events_ready_cache then true
  else if c.event_sensors.length ≠ c.max_events then false
  else c.event_sensors.all (·.available)

/-- `get_event_names` (`util.py`): the rendered `slot_name` values of the
event sensors, dropping falsy (absent or empty) names. -/
def getEventNames (c : Coordinator) : List String :=
  c.event_sensors.filterMap fun e =>
    match e.slot_name with
    | some n => if n = "" then none else some n
    | none => none

/-- The `last_end` computation of the sweep: Python
`calendar[max_events - 1].end.date()` when `max_events <= len(calendar)`
(note `max_events = 0` indexes `-1`, i.e. the last element), else
`calendar[-1].end.date()`.  Only evaluated on a non-empty calendar. -/
def lastEnd (c : Coordinator) : Date :=
  if c.max_events ≤ c.calendar.length then
    if c.max_events = 0 then (c.calendar.getLastD default).endDate
    else ((c.calendar.getD (c.max_events - 1) default).endDate)
  else (c.calendar.getLastD default).endDate

/-- The per-slot `clear_code` flag of
`EventOverrides.async_check_overrides`: the disjunction of the five clear
conditions, in source order. -/
def shouldClear (o : EventOverrides) (c : Coordinator) (slot : Int) : Bool :=
  let start_date := o.getSlotStartDate c.today slot
  let end_date := o.getSlotEndDate c.today slot
  !(getEventNames c).contains (o.getSlotName slot) ||
    c.calendar.isEmpty ||
    Date.blt end_date start_date ||
    Date.blt end_date c.today ||
    Date.blt (lastEnd c) start_date

/-- One iteration of the sweep loop: when the slot's flag is set, fire the
external reset primitive (logged) and overwrite the slot with the cleared
placeholder via `update(slot, "", "", start_of_local_day, ...)`. -/
def sweepStep (c : Coordinator) (acc : EventOverrides × List Int)
    (slot : Int) : EventOverrides × List Int :=
  if shouldClear acc.1 c slot then
    (acc.1.update slot "" "" ⟨c.today, 0⟩ ⟨c.today, 0⟩ none, acc.2 ++ [slot])
  else acc

/-- `EventOverrides.async_check_overrides` (the sweep): gated on
`calendar_loaded` and `events_ready`, then clears every assigned slot
whose flag is set.  Returns the new store and the log of slots for which
the external reset primitive (`async_fire_clear_code`) was invoked. -/
def EventOverrides.asyncCheckOverrides (o : EventOverrides)
    (c : Coordinator) : EventOverrides × List Int :=
  if !c.calendar_loaded || !c.eventsReady then (o, [])
  else
    let assigned := slotsWithValues o.overrides
    if assigned.isEmpty then (o, [])
    else assigned.foldl (sweepStep c) (o, [])

/-! ## `async_fire_update_times` (util.py) -/

/-- `async_fire_update_times`: look the slot up by the event's rendered
`slot_name`; the sentinel `0` (Python falsy) means "not assigned" and the
function returns without issuing any service call.  Returns the log of
entities written. -/
def asyncFireUpdateTimes (o : EventOverrides) (slot_name : String)
    (lockname : String) : List String :=
  let slot := o.getSlotKeyByName slot_name
  if slot = 0 then []
  else
    ["input_datetime.end_date_" ++ lockname ++ "_" ++ toString slot,
     "input_datetime.start_date_" ++ lockname ++ "_" ++ toString slot]

/-! ## Calendar refresh tail (`coordinator.py _refresh_calendar`) -/

/-- The slice of coordinator state mutated by the tail of
`_refresh_calendar` once a response parsed successfully. -/
structure RefreshState where
  calendar : List CalEvent
  calendar_loaded : Bool
  overrides_loaded : Bool
  calendar_ready : Bool
deriving Repr, DecidableEq

/-- The tail of `RentalControlCoordinator._refresh_calendar` after a
successful parse produced `new_calendar`: the anti-flap guard returns with
no state change when the previous list had more than one event and the new
parse has zero; otherwise the list is replaced and `calendar_loaded` is
set (plus the `overrides_loaded`/`calendar_ready` bookkeeping,
`lockConfigured` standing for `lockname is not None`). -/
def refreshCalendarApply (s : RefreshState) (lockConfigured : Bool)
    (new_calendar : List CalEvent) : RefreshState :=
  if 1 < s.calendar.length ∧ new_calendar.length = 0 then s
  else
    let s1 := { s with calendar := new_calendar, calendar_loaded := true }
    let s2 :=
      if !lockConfigured then { s1 with overrides_loaded := true } else s1
    if s2.overrides_loaded then { s2 with calendar_ready := true } else s2

/-! ## Sensor reassignment decision (`calsensor.py async_update`) -/

/-- The atomic comparisons feeding the `should_update_code` expression of
`RentalControlCalSensor.async_update`: whether `event.start` is after
`datetime.now(...)`, whether the previously rendered start/end differ from
the event's, the configured `should_update_code` flag, and the generator
mode. -/
structure SensorUpdateCtx where
  startFuture : Bool
  startChanged : Bool
  endChanged : Bool
  shouldUpdateCfg : Bool
  generator : String
deriving Repr, DecidableEq

/-- The `should_update_code` expression exactly as the source parses
(Python `and` binds tighter than `or`):
`(A and B) or (C and D and E)`. -/
def sensorShouldUpdateCode (ctx : SensorUpdateCtx) : Bool :=
  (ctx.startFuture && ctx.startChanged) ||
    (ctx.endChanged && ctx.shouldUpdateCfg && (ctx.generator == "date_based"))

/-- The condition the spec (and the source's own comment block) states for
triggering the clear: all three of (a) start in the future and start or
end changed, (b) the config toggle, (c) `date_based` mode. -/
def specShouldUpdateCode (ctx : SensorUpdateCtx) : Bool :=
  (ctx.startFuture && (ctx.startChanged || ctx.endChanged)) &&
    ctx.shouldUpdateCfg && (ctx.generator == "date_based")

/-! ## Door-code generation (`calsensor.py _generate_door_code`) -/

/-- Two-digit zero-padded rendering (`strftime` `%d`/`%m`). -/
def pad2 (n : Nat) : String :=
  if n < 10 then "0" ++ toString n else toString n

/-- Python `str.zfill`: left-pad with zeros to the given width. -/
def zfill (s : String) (width : Nat) : String :=
  if s.length < width then
    String.mk (List.replicate (width - s.length) '0') ++ s
  else s

/-- The date-based code before truncation/padding: start-day, end-day,
start-month, end-month, start-year, end-year digits concatenated
(`strftime` `%Y` rendered as the plain decimal year, exact for the years
1000–9999 this system handles). -/
def dateCodeRaw (start endd : Date) : String :=
  pad2 start.day ++ pad2 endd.day ++ pad2 start.month ++ pad2 endd.month ++
    toString start.year ++ toString endd.year

/-- `RentalControlCalSensor._generate_door_code`.  The `last_four`
extraction result and the seeded-PRNG draw are opaque inputs
(`extractLastFour`, `staticRandom`): both depend only on the description
in the source and neither is evaluated on the paths verified here. -/
def generateDoorCode (generator0 : String) (code_length : Nat)
    (description : Option String) (start endd : Date)
    (extractLastFour : Option String) (staticRandom : String) : String :=
  let generator := if description.isNone then "date_based" else generator0
  let ret : Option String :=
    if generator = "last_four" ∧ code_length = 4 then extractLastFour
    else if generator = "static_random" then some staticRandom
    else none
  match ret with
  | some c => c
  | none =>
    let code := dateCodeRaw start endd
    if code_length < code.length then
      (code.toList.take code_length).asString
    else zfill code code_length

/-! ## Slot-name extraction (`util.py get_slot_name`)

The regular expressions of the source are embedded as explicit scans over
`List Char` with Python `re` semantics on the inputs this system sees:
patterns are matched leftmost-first, `.` does not cross a newline, and the
configured prefix is treated as a literal string (it contains no regex
metacharacters in any supported configuration). -/

/-- Python `str.strip` whitespace set (ASCII). -/
def pyIsSpace (ch : Char) : Bool :=
  ch = ' ' || ch = '\t' || ch = '\n' || ch = '\r' || ch = '\x0b' || ch = '\x0c'

/-- Python `str.strip`. -/
def pyStrip (l : List Char) : List Char :=
  ((l.dropWhile pyIsSpace).reverse.dropWhile pyIsSpace).reverse

/-- Whether `pat` occurs as a contiguous substring of `hay`
(`re.search` of a literal pattern, Python `in`). -/
def containsSubstr (hay pat : List Char) : Bool :=
  match hay with
  | [] => pat.isEmpty
  | _ :: t => pat.isPrefixOf hay || containsSubstr t pat

/-- `re.findall(f"{prefix} (.*)", summary)[0]`: the capture of the
leftmost occurrence of the literal prefix followed by a space, running to
the end of that line; `none` when the pattern never matches (the Python
code then raises `IndexError` on the empty list). -/
def stripPfxSearch (pfx : List Char) : List Char → Option (List Char)
  | [] => none
  | c :: t =>
    if (pfx ++ [' ']).isPrefixOf (c :: t) then
      some (((c :: t).drop (pfx.length + 1)).takeWhile (· ≠ '\n'))
    else stripPfxSearch pfx t

/-- Upper-case ASCII letter (`[A-Z]`). -/
def isUpperAZ (ch : Char) : Bool := 'A' ≤ ch && ch ≤ 'Z'

/-- `[A-Z0-9]`. -/
def isUpperAZ09 (ch : Char) : Bool :=
  isUpperAZ ch || ('0' ≤ ch && ch ≤ '9')

/-- `re.search(r"([A-Z][A-Z0-9]{9})", description)`: the leftmost
ten-character confirmation-code match. -/
def findAirbnbCode : List Char → Option (List Char)
  | [] => none
  | c :: t =>
    if isUpperAZ c && (t.take 9).length == 9 && (t.take 9).all isUpperAZ09 then
      some (c :: t.take 9)
    else findAirbnbCode t

/-- `re.findall(r" - (.*)$", name)` first capture: the text after the
leftmost `" - "` whose line is the final line of the string (`$` without
`MULTILINE` anchors at the end, or just before a terminal newline). -/
def findDashName : List Char → Option (List Char)
  | [] => none
  | c :: t =>
    if [' ', '-', ' '].isPrefixOf (c :: t) then
      let rest := (c :: t).drop 3
      let line := rest.takeWhile (· ≠ '\n')
      let rem := rest.drop line.length
      if rem.isEmpty || rem == ['\n'] then some line else findDashName t
    else findDashName t

/-- The text after the last occurrence of `sep` in the list (the greedy
`.*` backtracking of `.*: (.*)`), scanning with a most-recent accumulator. -/
def afterLastSepGo (sep : List Char) : List Char → Option (List Char) →
    Option (List Char)
  | [], acc => acc
  | c :: t, acc =>
    if sep.isPrefixOf (c :: t) then
      afterLastSepGo sep t (some ((c :: t).drop sep.length))
    else afterLastSepGo sep t acc

/-- `re.findall(r"Tripadvisor.*: (.*)", name)` first capture: at the
leftmost `"Tripadvisor"` whose line still contains `": "`, the text after
the last `": "` of that line. -/
def findTripadvisor : List Char → Option (List Char)
  | [] => none
  | c :: t =>
    if "Tripadvisor".toList.isPrefixOf (c :: t) then
      match afterLastSepGo [':', ' ']
          (((c :: t).drop 11).takeWhile (· ≠ '\n')) none with
      | some g => some g
      | none => findTripadvisor t
    else findTripadvisor t

/-- `re.findall(r"\s*CLOSED - (.*)", name)` first capture: the rest of the
line after the leftmost `"CLOSED - "` (the `\s*` does not affect the
capture). -/
def findClosed : List Char → Option (List Char)
  | [] => none
  | c :: t =>
    if "CLOSED - ".toList.isPrefixOf (c :: t) then
      some (((c :: t).drop 9).takeWhile (· ≠ '\n'))
    else findClosed t

/-- Indices of `'-'` characters. -/
def dashIdxGo : List Char → Nat → List Nat
  | [], _ => []
  | c :: t, i =>
    if c = '-' then i :: dashIdxGo t (i + 1) else dashIdxGo t (i + 1)

/-- Matching `(.*)-.*-` against the remainder of a line after an opening
dash: the greedy capture runs up to the second-to-last dash, and the match
requires at least two dashes. -/
def guestyGroup (line : List Char) : Option (List Char) :=
  let ds := dashIdxGo line 0
  if ds.length ≥ 2 then some (line.take (ds.getD (ds.length - 2) 0))
  else none

/-- `re.findall(r"-(.*)-.*-", name)` first capture: at the leftmost dash
whose line carries two further dashes, the text between it and the
second-to-last dash of that line. -/
def findGuesty : List Char → Option (List Char)
  | [] => none
  | c :: t =>
    if c = '-' then
      match guestyGroup (t.takeWhile (· ≠ '\n')) with
      | some g => some g
      | none => findGuesty t
    else findGuesty t

/-- `util.get_slot_name(summary, description, prefix)`.  The result is
`Except.error ()` where the Python code raises (the `IndexError` of
`p.findall(summary)[0]` on an absent prefix), `Except.ok none` where it
returns `None`, and `Except.ok (some s)` otherwise.  `description` is
`Option String` because call sites pass `None` for feeds without a
description. -/
def get_slot_name (summary : String) (description : Option String)
    (pfx : String) : Except Unit (Option String) := do
  let name ←
    (if pfx ≠ "" then
      match stripPfxSearch pfx.toList summary.toList with
      | some n => Except.ok n
      | none => Except.error ()
    else Except.ok summary.toList)
  if containsSubstr name "Not available".toList ||
      containsSubstr name "Blocked".toList then
    return none
  if containsSubstr name "Reserved".toList then
    if name = "Reserved".toList then
      match description with
      | some d =>
        if d ≠ "" then
          match findAirbnbCode d.toList with
          | some code => return some (pyStrip code).asString
          | none => return none
        else return none
      | none => return none
    else
      match findDashName name with
      | some g => return some (pyStrip g).asString
      | none => pure ()
  if containsSubstr name "Tripadvisor".toList then
    match findTripadvisor name with
    | some g => return some (pyStrip g).asString
    | none => pure ()
  if containsSubstr name "CLOSED".toList then
    match findClosed name with
    | some g => return some (pyStrip g).asString
    | none => pure ()
  match findGuesty name with
  | some g => return some (pyStrip g).asString
  | none => return some (pyStrip name).asString

/-! ## Spec-side definitions

`specNextFreeSlot` is written from the specification's words for the
next-free-slot recomputation (§4.3 steps 2–6), to be compared with the
source-side `EventOverrides.assignNextSlot`. -/

/-- Whether the table holds a non-`None` override at `k` ("occupied"). -/
def occB (os : OverrideTable) (k : Int) : Bool :=
  match lookupSlot os k with
  | some (some _) => true
  | _ => false

/-- The managed slot range `[start_slot, start_slot + max_slots)`, in
ascending order. -/
def rangeSlots (start_slot : Int) (max_slots : Nat) : List Int :=
  List.map (fun i : Nat => start_slot + (i : Int)) (List.range max_slots)

/-- The spec's next-free-slot rule: `none` when every slot in range is
occupied; otherwise the smallest free slot strictly above the high
watermark (the largest occupied slot, `start_slot - 1` when none is
occupied), falling back to the smallest free slot anywhere in range. -/
def specNextFreeSlot (isOcc : Int → Bool) (start_slot : Int)
    (max_slots : Nat) : Option Int :=
  let slots := rangeSlots start_slot max_slots
  let occ := slots.filter isOcc
  let free := slots.filter (fun k => !isOcc k)
  if free.isEmpty then none
  else
    let high_watermark := occ.getLastD (start_slot - 1)
    match (free.filter (fun k => decide (high_watermark < k))).head? with
    | some a => some a
    | none => free.head?

/-- The spec's §3 invariant on the reconciliation engine state:
`next_free_slot`, if non-null, currently holds the cleared placeholder. -/
def SlotInvariant (o : EventOverrides) : Prop :=
  ∀ k, o.next_slot = some k → lookupSlot o.overrides k = some none

/-- Well-formedness of the override store that the surrounding system
maintains: keys are unique, keys lie in the managed slot range, and a
cached `next_slot` is only ever computed once the table is full. -/
def StoreWF (o : EventOverrides) : Prop :=
  (o.overrides.map Prod.fst).Nodup ∧
    (∀ k ∈ o.overrides.map Prod.fst,
      k ∈ rangeSlots o.start_slot o.max_slots) ∧
    (∀ k, o.next_slot = some k → o.overrides.length = o.max_slots)

/-! ## Concrete fixtures used by the witnesses -/

/-- An assigned override for guest "Jane Doe". -/
def wOvJane : EventOverride :=
  ⟨"Jane Doe", "1234", ⟨⟨2025, 3, 1⟩, 0⟩, ⟨⟨2025, 3, 8⟩, 0⟩⟩

/-- A three-slot store (slots 10–12) with only slot 10 assigned. -/
def wStore : EventOverrides :=
  { max_slots := 3
    next_slot := none
    overrides := [(10, some wOvJane), (11, none), (12, none)]
    ready := true
    start_slot := 10 }

/-- A coordinator that has loaded its calendar and whose sensors are
ready, currently rendering only guest "Alice". -/
def wCoord : Coordinator :=
  { calendar_loaded := true
    events_ready_cache := true
    event_sensors := [⟨true, some "Alice"⟩]
    max_events := 1
    calendar := [⟨⟨2025, 3, 9⟩⟩]
    today := ⟨2025, 3, 2⟩ }

/-- The same coordinator before its first successful calendar load. -/
def wCoordNotLoaded : Coordinator :=
  { wCoord with calendar_loaded := false }

/-- A refresh state holding two previously fetched events. -/
def wRefresh : RefreshState :=
  { calendar := [⟨⟨2025, 3, 9⟩⟩, ⟨⟨2025, 3, 20⟩⟩]
    calendar_loaded := false
    overrides_loaded := false
    calendar_ready := false }

/-! ## Association-list lemmas -/

theorem lookup_insertSlot (os : OverrideTable) (k : Int)
    (v : Option EventOverride) (j : Int) :
    lookupSlot (insertSlot os k v) j =
      if j = k then some v else lookupSlot os j := by
  induction os with
  | nil =>
    simp only [insertSlot, lookupSlot]
    by_cases h : j = k
    · simp [h]
    · rw [if_neg (fun e => h e.symm), if_neg h]
  | cons p rest ih =>
    obtain ⟨k', v'⟩ := p
    simp only [insertSlot]
    by_cases hk : k' = k
    · subst hk
      simp only [if_pos rfl, lookupSlot]
      by_cases h : k' = j
      · subst h
        simp
      · rw [if_neg h, if_neg (fun e => h e.symm), if_neg h]
    · rw [if_neg hk]
      simp only [lookupSlot]
      by_cases h : k' = j
      · rw [if_pos h, if_pos h, if_neg (fun e => hk (h.trans e))]
      · rw [if_neg h, if_neg h, ih]

theorem keys_insertSlot (os : OverrideTable) (k : Int)
    (v : Option EventOverride) :
    (insertSlot os k v).map Prod.fst =
      if k ∈ os.map Prod.fst then os.map Prod.fst
      else os.map Prod.fst ++ [k] := by
  induction os with
  | nil => simp [insertSlot]
  | cons p rest ih =>
    obtain ⟨k', v'⟩ := p
    simp only [insertSlot]
    by_cases hk : k' = k
    · subst hk
      simp
    · rw [if_neg hk]
      simp only [List.map_cons, List.mem_cons, ih]
      by_cases hm : k ∈ rest.map Prod.fst
      · rw [if_pos hm, if_pos (Or.inr hm)]
      · rw [if_neg hm, if_neg (by rintro (h | h) <;> [exact hk h.symm; exact hm h]),
          List.cons_append]

theorem lookup_eq_some_of_mem (os : OverrideTable)
    (hnd : (os.map Prod.fst).Nodup) (k : Int) (v : Option EventOverride)
    (h : (k, v) ∈ os) : lookupSlot os k = some v := by
  induction os with
  | nil => cases h
  | cons p rest ih =>
    obtain ⟨k', v'⟩ := p
    simp only [List.map_cons, List.nodup_cons] at hnd
    rcases List.mem_cons.mp h with h1 | h1
    · cases h1
      simp [lookupSlot]
    · have hk : k' ≠ k := by
        rintro rfl
        exact hnd.1 (List.mem_map.mpr ⟨(k', v), h1, rfl⟩)
      rw [lookupSlot, if_neg hk]
      exact ih hnd.2 h1

theorem mem_of_lookup_eq_some (os : OverrideTable) (k : Int)
    (v : Option EventOverride) (h : lookupSlot os k = some v) : (k, v) ∈ os := by
  induction os with
  | nil => cases h
  | cons p rest ih =>
    obtain ⟨k', v'⟩ := p
    rw [lookupSlot] at h
    by_cases hk : k' = k
    · rw [if_pos hk] at h
      cases h
      cases hk
      exact List.mem_cons_self _ _
    · rw [if_neg hk] at h
      exact List.mem_cons_of_mem _ (ih h)

theorem lookup_isSome_iff (os : OverrideTable) (k : Int) :
    (lookupSlot os k).isSome ↔ k ∈ os.map Prod.fst := by
  induction os with
  | nil => simp [lookupSlot]
  | cons p rest ih =>
    obtain ⟨k', v'⟩ := p
    rw [lookupSlot]
    by_cases hk : k' = k
    · subst hk
      simp
    · rw [if_neg hk]
      simp only [List.map_cons, List.mem_cons, ih]
      constructor
      · exact fun h => Or.inr h
      · rintro (h | h)
        · exact absurd h.symm hk
        · exact h

/-! ## Characterizing the sorted slot lists -/

theorem occB_eq_true_iff (os : OverrideTable) (a : Int) :
    occB os a = true ↔ ∃ e, lookupSlot os a = some (some e) := by
  unfold occB
  rcases h : lookupSlot os a with _ | ov
  · simp
  · rcases ov with _ | e <;> simp

theorem mem_slotsWithValues (os : OverrideTable)
    (hnd : (os.map Prod.fst).Nodup) (a : Int) :
    a ∈ slotsWithValues os ↔ occB os a = true := by
  rw [slotsWithValues, (List.perm_insertionSort _ _).mem_iff, occB_eq_true_iff]
  constructor
  · intro h
    obtain ⟨p, hp, hfst⟩ := List.mem_map.mp h
    obtain ⟨hpmem, hps⟩ := List.mem_filter.mp hp
    obtain ⟨e, he⟩ := Option.isSome_iff_exists.mp hps
    refine ⟨e, ?_⟩
    have : p = (a, some e) := by
      obtain ⟨p1, p2⟩ := p
      cases hfst
      cases he
      rfl
    rw [this] at hpmem
    exact lookup_eq_some_of_mem os hnd a (some e) hpmem
  · rintro ⟨e, he⟩
    exact List.mem_map.mpr ⟨(a, some e),
      List.mem_filter.mpr ⟨mem_of_lookup_eq_some os a (some e) he, rfl⟩, rfl⟩

theorem mem_slotsWithoutValues (os : OverrideTable)
    (hnd : (os.map Prod.fst).Nodup) (m a : Int) :
    a ∈ slotsWithoutValues os m ↔
      lookupSlot os a = some none ∧ m < a := by
  rw [slotsWithoutValues, (List.perm_insertionSort _ _).mem_iff]
  constructor
  · intro h
    obtain ⟨p, hp, hfst⟩ := List.mem_map.mp h
    obtain ⟨hpmem, hps⟩ := List.mem_filter.mp hp
    obtain ⟨h1, h2⟩ := Bool.and_eq_true .. |>.mp hps
    have hpn : p.2 = none := Option.isNone_iff_eq_none.mp h1
    have : p = (a, none) := by
      obtain ⟨p1, p2⟩ := p
      cases hfst
      simp only at hpn
      rw [hpn]
    rw [this] at hpmem
    refine ⟨lookup_eq_some_of_mem os hnd a none hpmem, ?_⟩
    have := of_decide_eq_true h2
    rwa [hfst] at this
  · rintro ⟨he, hm⟩
    exact List.mem_map.mpr ⟨(a, none),
      List.mem_filter.mpr ⟨mem_of_lookup_eq_some os a none he,
        by simp [hm]⟩, rfl⟩

theorem sorted_slotsWithValues (os : OverrideTable) :
    (slotsWithValues os).Sorted (· ≤ ·) :=
  List.sorted_insertionSort _ _

theorem sorted_slotsWithoutValues (os : OverrideTable) (m : Int) :
    (slotsWithoutValues os m).Sorted (· ≤ ·) :=
  List.sorted_insertionSort _ _

theorem nodup_slotsWithValues (os : OverrideTable)
    (hnd : (os.map Prod.fst).Nodup) : (slotsWithValues os).Nodup :=
  ((List.perm_insertionSort _ _).nodup_iff).mpr
    (hnd.sublist ((List.filter_sublist os).map Prod.fst))

theorem nodup_slotsWithoutValues (os : OverrideTable)
    (hnd : (os.map Prod.fst).Nodup) (m : Int) :
    (slotsWithoutValues os m).Nodup :=
  ((List.perm_insertionSort _ _).nodup_iff).mpr
    (hnd.sublist ((List.filter_sublist os).map Prod.fst))

/-! ## The managed slot range -/

theorem mem_rangeSlots {a s : Int} {n : Nat} :
    a ∈ rangeSlots s n ↔ s ≤ a ∧ a < s + n := by
  simp only [rangeSlots, List.mem_map, List.mem_range]
  constructor
  · rintro ⟨i, hi, rfl⟩
    constructor <;> omega
  · rintro ⟨h1, h2⟩
    exact ⟨(a - s).toNat, by omega, by omega⟩

theorem length_rangeSlots (s : Int) (n : Nat) :
    (rangeSlots s n).length = n := by
  rw [rangeSlots, List.length_map, List.length_range]

theorem nodup_rangeSlots (s : Int) (n : Nat) : (rangeSlots s n).Nodup := by
  rw [rangeSlots]
  exact (List.nodup_range n).map (fun i j h => by omega)

theorem sorted_rangeSlots (s : Int) (n : Nat) :
    (rangeSlots s n).Sorted (· ≤ ·) := by
  rw [rangeSlots]
  exact List.Pairwise.map _ (fun i j (h : i < j) => by omega)
    (List.pairwise_lt_range n)

/-- Two sorted duplicate-free integer lists with the same members are
equal. -/
theorem sorted_nodup_ext {l₁ l₂ : List Int}
    (s₁ : l₁.Sorted (· ≤ ·)) (s₂ : l₂.Sorted (· ≤ ·))
    (d₁ : l₁.Nodup) (d₂ : l₂.Nodup) (h : ∀ a, a ∈ l₁ ↔ a ∈ l₂) : l₁ = l₂ :=
  List.eq_of_perm_of_sorted
    ((List.perm_ext_iff_of_nodup d₁ d₂).mpr h) s₁ s₂

theorem occB_of_lookup_none (os : OverrideTable) (a : Int)
    (h : lookupSlot os a = some none) : occB os a = false := by
  unfold occB
  rw [h]

theorem lookup_none_of_mem_not_occ (os : OverrideTable) (a : Int)
    (h1 : a ∈ os.map Prod.fst) (h2 : occB os a = false) :
    lookupSlot os a = some none := by
  have hs := (lookup_isSome_iff os a).mpr h1
  rcases hl : lookupSlot os a with _ | v
  · rw [hl] at hs
    cases hs
  · rcases v with _ | e
    · rfl
    · unfold occB at h2
      rw [hl] at h2
      cases h2

theorem mem_keys_of_occB (os : OverrideTable) (a : Int)
    (h : occB os a = true) : a ∈ os.map Prod.fst := by
  obtain ⟨e, he⟩ := (occB_eq_true_iff os a).mp h
  exact (lookup_isSome_iff os a).mp (by rw [he]; rfl)

theorem keys_length_eq (os : OverrideTable) (s : Int) (n : Nat)
    (hnd : (os.map Prod.fst).Nodup)
    (hkeys : ∀ k, k ∈ os.map Prod.fst ↔ k ∈ rangeSlots s n) :
    os.length = n := by
  have hp : List.Perm (os.map Prod.fst) (rangeSlots s n) :=
    (List.perm_ext_iff_of_nodup hnd (nodup_rangeSlots s n)).mpr hkeys
  have := hp.length_eq
  rwa [List.length_map, length_rangeSlots] at this

theorem keys_length_le (os : OverrideTable) (s : Int) (n : Nat)
    (hnd : (os.map Prod.fst).Nodup)
    (hsub : ∀ k ∈ os.map Prod.fst, k ∈ rangeSlots s n) : os.length ≤ n := by
  have := (hnd.subperm hsub).length_le
  rwa [List.length_map, length_rangeSlots] at this

theorem slotsWithValues_eq_range_filter (o : EventOverrides)
    (hnd : (o.overrides.map Prod.fst).Nodup)
    (hkeys : ∀ k, k ∈ o.overrides.map Prod.fst ↔
      k ∈ rangeSlots o.start_slot o.max_slots) :
    slotsWithValues o.overrides =
      (rangeSlots o.start_slot o.max_slots).filter (occB o.overrides) := by
  refine sorted_nodup_ext (sorted_slotsWithValues _)
    ((sorted_rangeSlots _ _).filter _)
    (nodup_slotsWithValues _ hnd)
    ((nodup_rangeSlots _ _).filter _) (fun a => ?_)
  rw [mem_slotsWithValues _ hnd, List.mem_filter]
  constructor
  · intro h
    exact ⟨(hkeys a).mp (mem_keys_of_occB _ _ h), h⟩
  · exact fun h => h.2

theorem slotsWithoutValues_eq_free_filter (o : EventOverrides)
    (hnd : (o.overrides.map Prod.fst).Nodup)
    (hkeys : ∀ k, k ∈ o.overrides.map Prod.fst ↔
      k ∈ rangeSlots o.start_slot o.max_slots) (m : Int) :
    slotsWithoutValues o.overrides m =
      ((rangeSlots o.start_slot o.max_slots).filter
        (fun k => !occB o.overrides k)).filter (fun k => decide (m < k)) := by
  refine sorted_nodup_ext (sorted_slotsWithoutValues _ _)
    (((sorted_rangeSlots _ _).filter _).filter _)
    (nodup_slotsWithoutValues _ hnd _)
    (((nodup_rangeSlots _ _).filter _).filter _) (fun a => ?_)
  rw [mem_slotsWithoutValues _ hnd, List.mem_filter, List.mem_filter]
  constructor
  · rintro ⟨h1, h2⟩
    have hk : a ∈ o.overrides.map Prod.fst :=
      (lookup_isSome_iff _ _).mp (by rw [h1]; rfl)
    exact ⟨⟨(hkeys a).mp hk, by rw [occB_of_lookup_none _ _ h1]; rfl⟩,
      by simpa using h2⟩
  · rintro ⟨⟨hr, hocc⟩, hm⟩
    have : occB o.overrides a = false := by
      cases h : occB o.overrides a
      · rfl
      · rw [h] at hocc
        cases hocc
    exact ⟨lookup_none_of_mem_not_occ _ _ ((hkeys a).mpr hr) this,
      by simpa using hm⟩

theorem slotsWithoutValues_zero_eq_free (o : EventOverrides)
    (hnd : (o.overrides.map Prod.fst).Nodup)
    (hkeys : ∀ k, k ∈ o.overrides.map Prod.fst ↔
      k ∈ rangeSlots o.start_slot o.max_slots)
    (hstart : 1 ≤ o.start_slot) :
    slotsWithoutValues o.overrides 0 =
      (rangeSlots o.start_slot o.max_slots).filter
        (fun k => !occB o.overrides k) := by
  refine sorted_nodup_ext (sorted_slotsWithoutValues _ _)
    ((sorted_rangeSlots _ _).filter _)
    (nodup_slotsWithoutValues _ hnd _)
    ((nodup_rangeSlots _ _).filter _) (fun a => ?_)
  rw [mem_slotsWithoutValues _ hnd, List.mem_filter]
  constructor
  · rintro ⟨h1, _⟩
    have hk : a ∈ o.overrides.map Prod.fst :=
      (lookup_isSome_iff _ _).mp (by rw [h1]; rfl)
    exact ⟨(hkeys a).mp hk, by rw [occB_of_lookup_none _ _ h1]; rfl⟩
  · rintro ⟨hr, hocc⟩
    have hocc' : occB o.overrides a = false := by
      cases h : occB o.overrides a
      · rfl
      · rw [h] at hocc
        cases hocc
    have hb := (mem_rangeSlots.mp hr).1
    exact ⟨lookup_none_of_mem_not_occ _ _ ((hkeys a).mpr hr) hocc',
      by omega⟩

theorem assignNextSlot_spec (o : EventOverrides)
    (hnd : (o.overrides.map Prod.fst).Nodup)
    (hkeys : ∀ k, k ∈ o.overrides.map Prod.fst ↔
      k ∈ rangeSlots o.start_slot o.max_slots)
    (hstart : 1 ≤ o.start_slot) :
    o.assignNextSlot.next_slot =
      specNextFreeSlot (occB o.overrides) o.start_slot o.max_slots := by
  have hlen : o.overrides.length = o.max_slots :=
    keys_length_eq _ _ _ hnd hkeys
  have hswv := slotsWithValues_eq_range_filter o hnd hkeys
  simp only [EventOverrides.assignNextSlot, specNextFreeSlot]
  rw [if_neg (not_not_intro hlen)]
  by_cases hfull : (slotsWithValues o.overrides).length = o.max_slots
  · rw [if_pos hfull]
    have hocc_eq : (rangeSlots o.start_slot o.max_slots).filter
        (occB o.overrides) = rangeSlots o.start_slot o.max_slots := by
      apply (List.filter_sublist _).eq_of_length
      rw [← hswv, hfull, length_rangeSlots]
    have hall := List.filter_eq_self.mp hocc_eq
    have hfree_nil : (rangeSlots o.start_slot o.max_slots).filter
        (fun k => !occB o.overrides k) = [] := by
      rw [List.filter_eq_nil_iff]
      intro a ha
      simp [hall a ha]
    rw [hfree_nil]
    simp
  · rw [if_neg hfull]
    have hfree_ne : (rangeSlots o.start_slot o.max_slots).filter
        (fun k => !occB o.overrides k) ≠ [] := by
      intro h
      have hnone := List.filter_eq_nil_iff.mp h
      have hocc_eq : (rangeSlots o.start_slot o.max_slots).filter
          (occB o.overrides) = rangeSlots o.start_slot o.max_slots := by
        apply List.filter_eq_self.mpr
        intro a ha
        cases hb : occB o.overrides a
        · exact absurd (by simp [hb]) (hnone a ha)
        · rfl
      apply hfull
      rw [hswv, hocc_eq, length_rangeSlots]
    rw [if_neg (by simpa using hfree_ne)]
    rw [hswv,
      slotsWithoutValues_eq_free_filter o hnd hkeys _]
    rcases hh : (((rangeSlots o.start_slot o.max_slots).filter
        (fun k => !occB o.overrides k)).filter
          (fun k => decide ((((rangeSlots o.start_slot o.max_slots).filter
            (occB o.overrides)).getLastD (o.start_slot - 1)) < k))).head?
        with _ | a
    · simp only [hh]
      rw [slotsWithoutValues_zero_eq_free o hnd hkeys hstart]
      rcases hhd : ((rangeSlots o.start_slot o.max_slots).filter
          (fun k => !occB o.overrides k)).head? with _ | f0
      · exact absurd (List.head?_eq_none_iff.mp hhd) hfree_ne
      · simp only [hhd]
    · simp only [hh]

/-! ## Behaviour of the write operation -/

theorem mem_of_head?_eq_some {α : Type} {l : List α} {a : α}
    (h : l.head? = some a) : a ∈ l := by
  cases l with
  | nil => cases h
  | cons b t =>
    cases h
    exact List.mem_cons_self _ _

theorem assignNextSlot_destruct (o : EventOverrides) :
    ∃ ns, o.assignNextSlot = { o with next_slot := ns } := by
  unfold EventOverrides.assignNextSlot
  dsimp only
  repeat' split
  all_goals exact ⟨_, rfl⟩

theorem assignNextSlot_fields (o : EventOverrides) :
    o.assignNextSlot.overrides = o.overrides ∧
      o.assignNextSlot.start_slot = o.start_slot ∧
      o.assignNextSlot.max_slots = o.max_slots ∧
      o.assignNextSlot.ready = o.ready := by
  obtain ⟨ns, h⟩ := assignNextSlot_destruct o
  rw [h]
  exact ⟨rfl, rfl, rfl, rfl⟩

theorem update_overrides (o : EventOverrides) (slot : Int)
    (code name : String) (st et : DateTime) (pfx : Option String) :
    (o.update slot code name st et pfx).overrides =
      updTable o.overrides slot code name st et pfx := by
  simp only [EventOverrides.update]
  split
  · exact (assignNextSlot_fields _).1
  · exact (assignNextSlot_fields _).1

theorem update_next_slot (o : EventOverrides) (slot : Int)
    (code name : String) (st et : DateTime) (pfx : Option String) :
    (o.update slot code name st et pfx).next_slot =
      (EventOverrides.assignNextSlot
        { o with overrides :=
            updTable o.overrides slot code name st et pfx }).next_slot := by
  simp only [EventOverrides.update]
  split <;> rfl

theorem update_start_slot (o : EventOverrides) (slot : Int)
    (code name : String) (st et : DateTime) (pfx : Option String) :
    (o.update slot code name st et pfx).start_slot = o.start_slot := by
  simp only [EventOverrides.update]
  split
  · exact (assignNextSlot_fields _).2.1
  · exact (assignNextSlot_fields _).2.1

theorem update_max_slots (o : EventOverrides) (slot : Int)
    (code name : String) (st et : DateTime) (pfx : Option String) :
    (o.update slot code name st et pfx).max_slots = o.max_slots := by
  simp only [EventOverrides.update]
  split
  · exact (assignNextSlot_fields _).2.2.1
  · exact (assignNextSlot_fields _).2.2.1

theorem keys_updTable (os : OverrideTable) (slot : Int)
    (code name : String) (st et : DateTime) (pfx : Option String) :
    (updTable os slot code name st et pfx).map Prod.fst =
      if slot ∈ os.map Prod.fst then os.map Prod.fst
      else os.map Prod.fst ++ [slot] := by
  unfold updTable
  split <;> exact keys_insertSlot os slot _

theorem lookup_updTable (os : OverrideTable) (slot : Int)
    (code name : String) (st et : DateTime) (pfx : Option String) (j : Int) :
    lookupSlot (updTable os slot code name st et pfx) j =
      if j = slot then
        some (if name ≠ "" then
          some ⟨stripNamePfx (pfx.getD "") name, code, st, et⟩
        else none)
      else lookupSlot os j := by
  unfold updTable
  split <;> rw [lookup_insertSlot]

theorem length_updTable_ge (os : OverrideTable) (slot : Int)
    (code name : String) (st et : DateTime) (pfx : Option String) :
    os.length ≤ (updTable os slot code name st et pfx).length := by
  have h1 : (updTable os slot code name st et pfx).length =
      ((updTable os slot code name st et pfx).map Prod.fst).length :=
    (List.length_map _ _).symm
  rw [h1, keys_updTable]
  split
  · rw [List.length_map]
  · rw [List.length_append, List.length_map]
    omega

/-! ## The cached-next-slot invariant -/

theorem assignNextSlot_inv (o : EventOverrides)
    (hnd : (o.overrides.map Prod.fst).Nodup) (k : Int)
    (hk : o.assignNextSlot.next_slot = some k) :
    (o.overrides.length = o.max_slots ∧
      lookupSlot o.overrides k = some none) ∨
    (o.overrides.length ≠ o.max_slots ∧ o.next_slot = some k) := by
  unfold EventOverrides.assignNextSlot at hk
  by_cases h1 : o.overrides.length ≠ o.max_slots
  · rw [if_pos h1] at hk
    exact Or.inr ⟨h1, hk⟩
  · rw [if_neg h1] at hk
    have hlen := not_not.mp h1
    left
    refine ⟨hlen, ?_⟩
    by_cases h2 : (slotsWithValues o.overrides).length = o.max_slots
    · rw [if_pos h2] at hk
      simp at hk
    · rw [if_neg h2] at hk
      rcases hh : (slotsWithoutValues o.overrides
          ((slotsWithValues o.overrides).getLastD (o.start_slot - 1))).head?
          with _ | a
      · simp only [hh] at hk
        rcases hh2 : (slotsWithoutValues o.overrides 0).head? with _ | b
        · simp only [hh2] at hk
          simp at hk
        · simp only [hh2] at hk
          have hb : b = k := by simpa using hk
          subst hb
          exact ((mem_slotsWithoutValues _ hnd _ _).mp
            (mem_of_head?_eq_some hh2)).1
      · simp only [hh] at hk
        have ha : a = k := by simpa using hk
        subst ha
        exact ((mem_slotsWithoutValues _ hnd _ _).mp
          (mem_of_head?_eq_some hh)).1

theorem update_preserves_wf_inv (o : EventOverrides) (slot : Int)
    (code name : String) (st et : DateTime) (pfx : Option String)
    (hwf : StoreWF o)
    (hslot : slot ∈ rangeSlots o.start_slot o.max_slots) :
    StoreWF (o.update slot code name st et pfx) ∧
      SlotInvariant (o.update slot code name st et pfx) := by
  obtain ⟨hnd, hsub, hfull⟩ := hwf
  have hto := update_overrides o slot code name st et pfx
  have hts := update_start_slot o slot code name st et pfx
  have htm := update_max_slots o slot code name st et pfx
  have htn := update_next_slot o slot code name st et pfx
  have hkeys' := keys_updTable o.overrides slot code name st et pfx
  have hnd' : ((updTable o.overrides slot code name st et pfx).map
      Prod.fst).Nodup := by
    rw [hkeys']
    split
    · exact hnd
    · rename_i hns
      simp [List.nodup_append, hnd, hns]
  have hsub' : ∀ k ∈ (updTable o.overrides slot code name st et pfx).map
      Prod.fst, k ∈ rangeSlots o.start_slot o.max_slots := by
    rw [hkeys']
    split
    · exact hsub
    · intro k hkk
      rcases List.mem_append.mp hkk with h | h
      · exact hsub k h
      · rw [List.mem_singleton.mp h]
        exact hslot
  have hlen_le : (updTable o.overrides slot code name st et pfx).length ≤
      o.max_slots := keys_length_le _ o.start_slot o.max_slots hnd' hsub'
  have hnot_stale : ∀ k : Int,
      ¬((updTable o.overrides slot code name st et pfx).length ≠
          o.max_slots ∧ o.next_slot = some k) := by
    rintro k ⟨h1, h2⟩
    have hol : o.overrides.length = o.max_slots := hfull k h2
    have hge := length_updTable_ge o.overrides slot code name st et pfx
    omega
  constructor
  · refine ⟨by rw [hto]; exact hnd', ?_, ?_⟩
    · rw [hto, hts, htm]
      exact hsub'
    · intro k hk
      rw [htn] at hk
      rcases assignNextSlot_inv _ hnd' k hk with ⟨h1, _⟩ | hst
      · rw [hto, htm]
        exact h1
      · exact absurd hst (hnot_stale k)
  · intro k hk
    rw [htn] at hk
    rcases assignNextSlot_inv _ hnd' k hk with ⟨_, h2⟩ | hst
    · rw [hto]
      exact h2
    · exact absurd hst (hnot_stale k)

/-! ## Behaviour of the sweep -/

theorem sweepStep_preserves (c : Coordinator)
    (acc : EventOverrides × List Int) (s : Int)
    (hwf : StoreWF acc.1) (hinv : SlotInvariant acc.1)
    (hs : s ∈ rangeSlots acc.1.start_slot acc.1.max_slots) :
    (StoreWF (sweepStep c acc s).1 ∧ SlotInvariant (sweepStep c acc s).1) ∧
      (sweepStep c acc s).1.start_slot = acc.1.start_slot ∧
      (sweepStep c acc s).1.max_slots = acc.1.max_slots := by
  unfold sweepStep
  split
  · exact ⟨update_preserves_wf_inv acc.1 s "" "" _ _ none hwf hs,
      update_start_slot acc.1 s "" "" _ _ none,
      update_max_slots acc.1 s "" "" _ _ none⟩
  · exact ⟨⟨hwf, hinv⟩, rfl, rfl⟩

theorem sweep_foldl_preserves (c : Coordinator) (slots : List Int) :
    ∀ acc : EventOverrides × List Int, StoreWF acc.1 → SlotInvariant acc.1 →
    (∀ s ∈ slots, s ∈ rangeSlots acc.1.start_slot acc.1.max_slots) →
    StoreWF (slots.foldl (sweepStep c) acc).1 ∧
      SlotInvariant (slots.foldl (sweepStep c) acc).1 := by
  induction slots with
  | nil =>
    intro acc hwf hinv _
    exact ⟨hwf, hinv⟩
  | cons s t ih =>
    intro acc hwf hinv hr
    rw [List.foldl_cons]
    obtain ⟨⟨hw, hi⟩, hss, hmm⟩ :=
      sweepStep_preserves c acc s hwf hinv (hr s (List.mem_cons_self _ _))
    exact ih _ hw hi (fun x hx => by
      rw [hss, hmm]
      exact hr x (List.mem_cons_of_mem _ hx))

theorem sweepStep_lookup_other (c : Coordinator)
    (acc : EventOverrides × List Int) (s slot : Int) (h : s ≠ slot) :
    lookupSlot (sweepStep c acc s).1.overrides slot =
      lookupSlot acc.1.overrides slot := by
  unfold sweepStep
  split
  · rw [update_overrides, lookup_updTable, if_neg (fun e => h e.symm)]
  · rfl

theorem sweepStep_count_other (c : Coordinator)
    (acc : EventOverrides × List Int) (s slot : Int) (h : s ≠ slot) :
    (sweepStep c acc s).2.count slot = acc.2.count slot := by
  unfold sweepStep
  split
  · simp [List.count_append, List.count_singleton', Ne.symm h]
  · rfl

theorem sweep_foldl_frame (c : Coordinator) (slots : List Int) :
    ∀ (acc : EventOverrides × List Int) (slot : Int), slot ∉ slots →
    lookupSlot (slots.foldl (sweepStep c) acc).1.overrides slot =
        lookupSlot acc.1.overrides slot ∧
      (slots.foldl (sweepStep c) acc).2.count slot = acc.2.count slot := by
  induction slots with
  | nil =>
    intro acc slot _
    exact ⟨rfl, rfl⟩
  | cons s t ih =>
    intro acc slot hns
    rw [List.foldl_cons]
    have hs : s ≠ slot := fun e => hns (e ▸ List.mem_cons_self _ _)
    obtain ⟨h1, h2⟩ :=
      ih (sweepStep c acc s) slot (fun hm => hns (List.mem_cons_of_mem _ hm))
    exact ⟨h1.trans (sweepStep_lookup_other c acc s slot hs),
      h2.trans (sweepStep_count_other c acc s slot hs)⟩

theorem sweep_foldl_clears (c : Coordinator) (slots : List Int) :
    ∀ (acc : EventOverrides × List Int) (slot : Int) (ov : EventOverride),
    slots.Nodup → slot ∈ slots →
    lookupSlot acc.1.overrides slot = some (some ov) →
    ov.slot_name ∉ getEventNames c →
    lookupSlot (slots.foldl (sweepStep c) acc).1.overrides slot =
        some none ∧
      (slots.foldl (sweepStep c) acc).2.count slot =
        acc.2.count slot + 1 := by
  induction slots with
  | nil =>
    intro _ _ _ _ h
    cases h
  | cons s t ih =>
    intro acc slot ov hnd hmem hlk hcont
    rw [List.foldl_cons]
    rcases List.mem_cons.mp hmem with heq | hmem'
    · subst heq
      have hclear : shouldClear acc.1 c slot = true := by
        simp [shouldClear, EventOverrides.getSlotName, hlk, hcont]
      have hstep : sweepStep c acc slot =
          (acc.1.update slot "" "" ⟨c.today, 0⟩ ⟨c.today, 0⟩ none,
            acc.2 ++ [slot]) := by
        unfold sweepStep
        rw [if_pos hclear]
      rw [hstep]
      have hni := List.nodup_cons.mp hnd
      obtain ⟨hlook, hcount⟩ := sweep_foldl_frame c t _ slot hni.1
      constructor
      · rw [hlook, update_overrides, lookup_updTable]
        simp
      · rw [hcount]
        simp [List.count_append, List.count_singleton']
    · have hni := List.nodup_cons.mp hnd
      have hs : s ≠ slot := fun e => hni.1 (e ▸ hmem')
      have hlk' : lookupSlot (sweepStep c acc s).1.overrides slot =
          some (some ov) := by
        rw [sweepStep_lookup_other c acc s slot hs]
        exact hlk
      obtain ⟨h1, h2⟩ := ih (sweepStep c acc s) slot ov hni.2 hmem' hlk' hcont
      refine ⟨h1, ?_⟩
      rw [h2, sweepStep_count_other c acc s slot hs]

/-! ## Lookup-by-name -/

theorem getSlotKeyGo_eq_zero_iff (o : EventOverrides) (name : String)
    (l : List Int) (h0 : (0 : Int) ∉ l) :
    getSlotKeyGo o name l = 0 ↔
      ∀ s ∈ l, ∀ ov, lookupSlot o.overrides s = some (some ov) →
        ov.slot_name ≠ name := by
  induction l with
  | nil => simp [getSlotKeyGo]
  | cons s t ih =>
    have hs0 : s ≠ 0 := fun e => h0 (e ▸ List.mem_cons_self _ _)
    have ht0 : (0 : Int) ∉ t := fun hm => h0 (List.mem_cons_of_mem _ hm)
    rw [getSlotKeyGo]
    rcases hl : lookupSlot o.overrides s with _ | v
    · rw [ih ht0]
      constructor
      · intro h x hx ov hov
        rcases List.mem_cons.mp hx with rfl | hx'
        · rw [hl] at hov
          cases hov
        · exact h x hx' ov hov
      · intro h x hx ov hov
        exact h x (List.mem_cons_of_mem _ hx) ov hov
    · rcases v with _ | ov
      · rw [ih ht0]
        constructor
        · intro h x hx ov hov
          rcases List.mem_cons.mp hx with rfl | hx'
          · rw [hl] at hov
            cases hov
          · exact h x hx' ov hov
        · intro h x hx ov hov
          exact h x (List.mem_cons_of_mem _ hx) ov hov
      · dsimp only
        by_cases he : ov.slot_name = name
        · rw [if_pos he]
          constructor
          · intro h
            exact absurd h hs0
          · intro h
            exact absurd he (h s (List.mem_cons_self _ _) ov hl)
        · rw [if_neg he, ih ht0]
          constructor
          · intro h x hx ov' hov'
            rcases List.mem_cons.mp hx with rfl | hx'
            · rw [hl] at hov'
              cases hov'
              exact he
            · exact h x hx' ov' hov'
          · intro h x hx ov' hov'
            exact h x (List.mem_cons_of_mem _ hx) ov' hov'

/-! ## Claim theorems -/

/-- C1: after a write that leaves every slot number of the managed range
`[start_slot, start_slot + max_slots)` with a recorded entry (and no entry
outside it), the recomputed `next_slot` equals the spec's rule
`specNextFreeSlot`: null when every slot is occupied, else the smallest
free slot above the high watermark, else the smallest free slot anywhere
in range.  `1 ≤ start_slot` holds for every valid configuration (slot
pools are 1-based; the default start slot is 10). -/
theorem next_free_slot_after_write (o : EventOverrides) (slot : Int)
    (code name : String) (st et : DateTime) (pfx : Option String)
    (hnd : ((o.update slot code name st et pfx).overrides.map
      Prod.fst).Nodup)
    (hkeys : ∀ k, k ∈ (o.update slot code name st et pfx).overrides.map
      Prod.fst ↔ k ∈ rangeSlots o.start_slot o.max_slots)
    (hstart : 1 ≤ o.start_slot) :
    (o.update slot code name st et pfx).next_slot =
      specNextFreeSlot
        (occB (o.update slot code name st et pfx).overrides)
        o.start_slot o.max_slots := by
  rw [update_next_slot, update_overrides] at *
  exact assignNextSlot_spec
    { o with overrides := updTable o.overrides slot code name st et pfx }
    hnd hkeys hstart

/-- Witness for C1, realizing the spec's tie-break example: occupied
slots {10, 12} of the range 10–12 (after writing "Bob" into slot 12) give
`next_slot = 11` — the watermark is 12, nothing is free above it, so the
smallest free slot anywhere wins. -/
theorem next_free_slot_after_write_witness :
    (wStore.update 12 "5678" "Bob" ⟨⟨2025, 3, 10⟩, 0⟩ ⟨⟨2025, 3, 12⟩, 0⟩
        none).next_slot =
      specNextFreeSlot
        (occB (wStore.update 12 "5678" "Bob" ⟨⟨2025, 3, 10⟩, 0⟩
          ⟨⟨2025, 3, 12⟩, 0⟩ none).overrides)
        wStore.start_slot wStore.max_slots ∧
    (wStore.update 12 "5678" "Bob" ⟨⟨2025, 3, 10⟩, 0⟩ ⟨⟨2025, 3, 12⟩, 0⟩
        none).next_slot = some 11 := by
  constructor
  · have he : (wStore.update 12 "5678" "Bob" ⟨⟨2025, 3, 10⟩, 0⟩
        ⟨⟨2025, 3, 12⟩, 0⟩ none).overrides.map Prod.fst =
        rangeSlots wStore.start_slot wStore.max_slots := by decide
    exact next_free_slot_after_write wStore 12 "5678" "Bob"
      ⟨⟨2025, 3, 10⟩, 0⟩ ⟨⟨2025, 3, 12⟩, 0⟩ none
      (by decide) (fun k => by rw [he]) (by decide)
  · decide

/-- C2: when the sweep actually runs (calendar loaded, event sensors
ready), any slot holding an override whose reservation identity is not
among the `slot_name` values rendered by the event sensors is cleared by
that single sweep call: the external reset primitive fires exactly once
for that slot, and the slot's entry is overwritten with the cleared
placeholder. -/
theorem sweep_clears_stale_slot (o : EventOverrides) (c : Coordinator)
    (slot : Int) (ov : EventOverride)
    (hnd : (o.overrides.map Prod.fst).Nodup)
    (hcl : c.calendar_loaded = true)
    (her : c.eventsReady = true)
    (hlk : lookupSlot o.overrides slot = some (some ov))
    (hstale : ov.slot_name ∉ getEventNames c) :
    lookupSlot (o.asyncCheckOverrides c).1.overrides slot = some none ∧
      (o.asyncCheckOverrides c).2.count slot = 1 := by
  have hmem : slot ∈ slotsWithValues o.overrides :=
    (mem_slotsWithValues _ hnd slot).mpr
      ((occB_eq_true_iff _ _).mpr ⟨ov, hlk⟩)
  unfold EventOverrides.asyncCheckOverrides
  rw [if_neg (by simp [hcl, her])]
  rw [if_neg (by
    intro he
    rw [List.isEmpty_iff.mp he] at hmem
    cases hmem)]
  have h := sweep_foldl_clears c (slotsWithValues o.overrides) (o, [])
    slot ov (nodup_slotsWithValues _ hnd) hmem hlk hstale
  simpa using h

/-- Witness for C2: slot 10 holds "Jane Doe", the sensors render only
"Alice", so one sweep resets slot 10 exactly once and clears it. -/
theorem sweep_clears_stale_slot_witness :
    lookupSlot (wStore.asyncCheckOverrides wCoord).1.overrides 10 =
        some none ∧
      (wStore.asyncCheckOverrides wCoord).2.count 10 = 1 :=
  sweep_clears_stale_slot wStore wCoord 10 wOvJane (by decide) rfl
    (by decide) (by decide) (by decide)

/-- C3: a sweep invoked while the calendar has not completed a load, or
while the event sensors are not all ready (`events_ready`, the
coordinator's latched "all event sensors report available" signal, is
false), is a no-op: the store is unchanged and no reset primitive is
invoked. -/
theorem sweep_skipped_before_ready (o : EventOverrides) (c : Coordinator)
    (h : c.calendar_loaded = false ∨ c.eventsReady = false) :
    o.asyncCheckOverrides c = (o, []) := by
  unfold EventOverrides.asyncCheckOverrides
  rcases h with h | h <;> rw [if_pos (by simp [h])]

/-- Witness for C3: with the calendar not yet loaded the sweep leaves the
store untouched and fires nothing. -/
theorem sweep_skipped_before_ready_witness :
    wStore.asyncCheckOverrides wCoordNotLoaded = (wStore, []) :=
  sweep_skipped_before_ready wStore wCoordNotLoaded (Or.inl rfl)

/-- C4 (code bug): the source's `should_update_code` expression
(`calsensor.py async_update`) parses as
`(start_future and start_changed) or (end_changed and cfg and date_based)`
because Python `and` binds tighter than `or`, while the source's own
comment block and the spec require all three of (a) start in the future
and start-or-end changed, (b) the config toggle, (c) `date_based`.  At the
input below (future start, start changed, toggle off, `last_four` mode)
the code fires the external clear although the spec's condition is
false. -/
theorem reassignment_clear_condition_bug :
    sensorShouldUpdateCode
        ⟨true, true, false, false, "last_four"⟩ = true ∧
      specShouldUpdateCode
        ⟨true, true, false, false, "last_four"⟩ = false := by
  constructor <;> rfl

/-- C5 (code bug): with a configured prefix that does not occur in the
summary, `get_slot_name` raises `IndexError` (`p.findall(summary)[0]` on
an empty match list) instead of failing soft; the spec (and the fail-soft
stripping the sibling `EventOverrides.update` implements) requires the
unmodified summary to be used, which would have produced "Jane Doe". -/
theorem extractor_missing_prefix_raises :
    get_slot_name "Reserved - Jane Doe" none "Stay Prefix" =
        Except.error () ∧
      get_slot_name "Reserved - Jane Doe" none "" =
        Except.ok (some "Jane Doe") := by
  constructor <;> rfl

/-- C6: the four concrete extractor cases of the spec: an Airbnb
"Reserved" summary with the confirmation code in the description, a
suffix-delimited guest name, a blocked entry, and a prefixed summary. -/
theorem extractor_concrete_cases :
    get_slot_name "Reserved" (some "...ABCDEFGHIJ...") "" =
        Except.ok (some "ABCDEFGHIJ") ∧
      get_slot_name "Reserved - Jane Doe" none "" =
        Except.ok (some "Jane Doe") ∧
      get_slot_name "Not available" none "" = Except.ok none ∧
      get_slot_name "Stay Prefix Jane Doe" none "Stay Prefix" =
        Except.ok (some "Jane Doe") := by
  refine ⟨rfl, rfl, rfl, rfl⟩

/-- C7: the anti-flap guard of `_refresh_calendar`: when the stored
calendar has more than one event and the new parse has zero, the refresh
discards the empty result — the whole refresh state (stored list,
`calendar_loaded`, and the readiness flags) is left unchanged. -/
theorem refresh_antiflap_keeps_calendar (s : RefreshState)
    (lockConfigured : Bool) (new_calendar : List CalEvent)
    (h1 : 1 < s.calendar.length) (h2 : new_calendar.length = 0) :
    refreshCalendarApply s lockConfigured new_calendar = s := by
  unfold refreshCalendarApply
  rw [if_pos ⟨h1, h2⟩]

/-- Witness for C7: a two-event calendar fed an empty parse result keeps
its state. -/
theorem refresh_antiflap_keeps_calendar_witness :
    refreshCalendarApply wRefresh true [] = wRefresh :=
  refresh_antiflap_keeps_calendar wRefresh true [] (by decide) rfl

/-- C8: in `date_based` mode — and whenever the event has no description,
whatever the configured mode — the generated door code is the
concatenation start-day, end-day, start-month, end-month, start-year,
end-year, truncated to `code_length` when longer and zero-left-padded
otherwise; it depends only on the two dates and `code_length`. -/
theorem date_based_door_code (generator0 : String) (code_length : Nat)
    (description : Option String) (start endd : Date)
    (extractLastFour : Option String) (staticRandom : String)
    (h : generator0 = "date_based" ∨ description = none) :
    generateDoorCode generator0 code_length description start endd
        extractLastFour staticRandom =
      (if code_length < (dateCodeRaw start endd).length then
        ((dateCodeRaw start endd).toList.take code_length).asString
      else zfill (dateCodeRaw start endd) code_length) := by
  rcases h with h | h
  · subst h
    rcases description with _ | d <;> rfl
  · subst h
    rfl

/-- Witness for C8, realizing the spec's example: start 2025-03-01, end
2025-03-08, length 4 gives the fixed code "0108". -/
theorem date_based_door_code_witness :
    generateDoorCode "date_based" 4 (some "Guest") ⟨2025, 3, 1⟩
        ⟨2025, 3, 8⟩ none "r" = "0108" := by
  rw [date_based_door_code "date_based" 4 (some "Guest") ⟨2025, 3, 1⟩
    ⟨2025, 3, 8⟩ none "r" (Or.inl rfl)]
  rfl

/-- C9: the invariant "a non-null `next_slot` points at a cleared
placeholder entry" is preserved by the write operation and by the sweep,
together with the store well-formedness (unique keys inside the managed
range, `next_slot` only cached once the table is full) that the
surrounding system maintains. -/
theorem next_slot_invariant_preserved (o : EventOverrides) (slot : Int)
    (code name : String) (st et : DateTime) (pfx : Option String)
    (c : Coordinator)
    (hwf : StoreWF o) (hinv : SlotInvariant o)
    (hslot : slot ∈ rangeSlots o.start_slot o.max_slots) :
    (StoreWF (o.update slot code name st et pfx) ∧
        SlotInvariant (o.update slot code name st et pfx)) ∧
      (StoreWF (o.asyncCheckOverrides c).1 ∧
        SlotInvariant (o.asyncCheckOverrides c).1) := by
  refine ⟨update_preserves_wf_inv o slot code name st et pfx hwf hslot, ?_⟩
  unfold EventOverrides.asyncCheckOverrides
  split
  · exact ⟨hwf, hinv⟩
  · dsimp only
    split
    · exact ⟨hwf, hinv⟩
    · refine sweep_foldl_preserves c (slotsWithValues o.overrides) (o, [])
        hwf hinv (fun s hs => ?_)
      exact hwf.2.1 s (mem_keys_of_occB _ _
        ((mem_slotsWithValues _ hwf.1 s).mp hs))

/-- Witness for C9: writing "Bob" into slot 12 of the three-slot store
keeps the invariant (the recomputed `next_slot` points at a cleared
slot). -/
theorem next_slot_invariant_preserved_witness :
    SlotInvariant (wStore.update 12 "5678" "Bob" ⟨⟨2025, 3, 10⟩, 0⟩
      ⟨⟨2025, 3, 12⟩, 0⟩ none) := by
  have h := next_slot_invariant_preserved wStore 12 "5678" "Bob"
    ⟨⟨2025, 3, 10⟩, 0⟩ ⟨⟨2025, 3, 12⟩, 0⟩ none wCoord
    ⟨by decide, by decide, by intro k hk; simp [wStore] at hk⟩
    (by intro k hk; simp [wStore] at hk)
    (by decide)
  exact h.1.2

/-- C10: `get_slot_key_by_name` returns the sentinel `0` exactly when no
slot with a non-null override stores the requested identity (slot numbers
are never 0 in a valid configuration), and `async_fire_update_times`
treats the sentinel as "not assigned" and issues no external write. -/
theorem update_times_unassigned_noop (o : EventOverrides)
    (name lockname : String)
    (hnd : (o.overrides.map Prod.fst).Nodup)
    (h0 : (0 : Int) ∉ o.overrides.map Prod.fst) :
    (o.getSlotKeyByName name = 0 ↔
        ∀ slot ov, lookupSlot o.overrides slot = some (some ov) →
          ov.slot_name ≠ name) ∧
      (o.getSlotKeyByName name = 0 →
        asyncFireUpdateTimes o name lockname = []) := by
  have h0' : (0 : Int) ∉ slotsWithValues o.overrides := fun hm =>
    h0 (mem_keys_of_occB _ _ ((mem_slotsWithValues _ hnd 0).mp hm))
  constructor
  · rw [EventOverrides.getSlotKeyByName,
      getSlotKeyGo_eq_zero_iff o name _ h0']
    constructor
    · intro h slot ov hlk
      exact h slot ((mem_slotsWithValues _ hnd slot).mpr
        ((occB_eq_true_iff _ _).mpr ⟨ov, hlk⟩)) ov hlk
    · intro h s _ ov hlk
      exact h s ov hlk
  · intro h
    simp only [asyncFireUpdateTimes]
    rw [if_pos h]

/-- Witness for C10: no slot stores "Nobody", so an update-times request
for that identity issues no external write. -/
theorem update_times_unassigned_noop_witness :
    asyncFireUpdateTimes wStore "Nobody" "lock" = [] := by
  have h := update_times_unassigned_noop wStore "Nobody" "lock"
    (by decide) (by decide)
  exact h.2 (by decide)

end RentalControl
